import Mathlib

/-!
Verification of the dmrgo map/reduce engine (runners.go, emitter.go).

Strings from the Go source are modelled as lists of characters, streams as the
list of characters remaining to be read, and fallible reads as Option values:
a read error from the underlying bufio.Reader is the case where the requested
delimiter is never found, which is the only error mode visible at this layer
for an in-memory stream.
-/

namespace Dmrgo

/-- KeyValue from runners.go: the primary record type. Go strings become
character lists. -/
structure KeyValue where
  Key : List Char
  Value : List Char
deriving DecidableEq

/-- bufio.Reader.ReadString(delim): reads up to and including the first
occurrence of the delimiter, returning the consumed segment (delimiter
included) and the rest of the stream. If the delimiter never occurs the Go
call returns the data read so far together with an error; both call sites in
runners.go discard the data in that case, so the model returns none. -/
def readString (delim : Char) : List Char → Option (List Char × List Char)
  | [] => none
  | c :: rest =>
    if c = delim then some ([c], rest)
    else
      match readString delim rest with
      | none => none
      | some (s, r) => some (c :: s, r)

/-- strings.TrimRight(s, cutset) for a single-character cutset: removes all
trailing occurrences of the character. -/
def trimRight (d : Char) (s : List Char) : List Char :=
  (s.reverse.dropWhile (fun c => c = d)).reverse

/-- readLineValue from runners.go lines 25-32: reads one newline-terminated
line, strips trailing newlines, and returns a record with an empty key; any
read error yields no record. -/
def readLineValue (s : List Char) : Option (KeyValue × List Char) :=
  match readString '\n' s with
  | none => none
  | some (line, rest) => some (⟨[], trimRight '\n' line⟩, rest)

/-- readLineKeyValue from runners.go lines 34-50: reads up to a tab as the
key, then up to a newline as the value, strips the respective trailing
delimiters; an error on either segment yields no record. -/
def readLineKeyValue (s : List Char) : Option (KeyValue × List Char) :=
  match readString '\t' s with
  | none => none
  | some (k, rest) =>
    match readString '\n' rest with
    | none => none
    | some (v, rest2) => some (⟨trimRight '\t' k, trimRight '\n' v⟩, rest2)

/-- printEmitter.Emit from emitter.go lines 30-35: appends the key, a tab
byte, the value and a newline byte to the buffered writer. -/
def printEmitterEmitTo (w : List Char) (key value : List Char) : List Char :=
  (((w ++ key) ++ ['\t']) ++ value) ++ ['\n']

/-- The wire line printEmitter.Emit produces on an empty buffer. -/
def printEmitterEmit (key value : List Char) : List Char :=
  printEmitterEmitTo [] key value

theorem readString_eq_none_iff (d : Char) :
    ∀ s : List Char, readString d s = none ↔ d ∉ s := by
  intro s
  induction s with
  | nil => simp [readString]
  | cons c rest ih =>
    by_cases hc : c = d
    · subst hc
      simp [readString]
    · rw [readString]
      simp only [if_neg hc]
      cases hr : readString d rest with
      | none =>
        have hdr : d ∉ rest := ih.mp hr
        simp only [List.mem_cons]
        constructor
        · intro _
          rintro (h | h)
          · exact hc h.symm
          · exact hdr h
        · intro _
          trivial
      | some p =>
        have hdr : d ∈ rest := by
          by_contra hm
          rw [ih.mpr hm] at hr
          cases hr
        simp only [List.mem_cons]
        constructor
        · intro h
          exact Option.noConfusion h
        · intro h
          exact absurd (Or.inr hdr) h

theorem readString_exact (d : Char) :
    ∀ (k : List Char), d ∉ k → ∀ rest : List Char,
      readString d (k ++ d :: rest) = some (k ++ [d], rest) := by
  intro k
  induction k with
  | nil =>
    intro _ rest
    simp [readString]
  | cons c k ih =>
    intro h rest
    have hc : ¬ c = d := fun hcd => h (by simp [hcd])
    have hk : d ∉ k := fun hm => h (List.mem_cons_of_mem _ hm)
    rw [List.cons_append, readString]
    simp [if_neg hc, ih hk rest]

theorem dropWhile_eq_self_of_not_mem {d : Char} :
    ∀ {l : List Char}, d ∉ l → l.dropWhile (fun c => c = d) = l := by
  intro l h
  cases l with
  | nil => rfl
  | cons c t =>
    have hc : ¬ c = d := fun hcd => h (by simp [hcd])
    simp [List.dropWhile, hc]

theorem trimRight_of_not_mem {d : Char} {s : List Char} (h : d ∉ s) :
    trimRight d s = s := by
  unfold trimRight
  rw [dropWhile_eq_self_of_not_mem (by simpa using h)]
  exact s.reverse_reverse

theorem trimRight_append_delim (d : Char) (s : List Char) :
    trimRight d (s ++ [d]) = trimRight d s := by
  unfold trimRight
  simp [List.dropWhile]

/-- C3 (confirmed): serializing a record whose key and value contain neither a
tab nor a newline through printEmitter.Emit and reading the produced line back
with readLineKeyValue yields exactly the original key and value (and leaves
the rest of the stream untouched). -/
theorem wire_round_trip (k v rest : List Char)
    (hk1 : '\t' ∉ k) (_hk2 : '\n' ∉ k) (_hv1 : '\t' ∉ v) (hv2 : '\n' ∉ v) :
    readLineKeyValue (printEmitterEmit k v ++ rest) = some (⟨k, v⟩, rest) := by
  have hform : printEmitterEmit k v ++ rest = k ++ '\t' :: (v ++ '\n' :: rest) := by
    simp [printEmitterEmit, printEmitterEmitTo]
  rw [hform]
  unfold readLineKeyValue
  simp only [readString_exact '\t' k hk1 (v ++ '\n' :: rest),
    readString_exact '\n' v hv2 rest, trimRight_append_delim,
    trimRight_of_not_mem hk1, trimRight_of_not_mem hv2]

/-- Witness for C3 at a concrete record. -/
theorem wire_round_trip_witness :
    ('\t' ∉ ['a', 'b'] ∧ '\n' ∉ ['a', 'b'] ∧ '\t' ∉ ['c'] ∧ '\n' ∉ ['c'])
    ∧ readLineKeyValue (printEmitterEmit ['a', 'b'] ['c'] ++ ['z'])
        = some (⟨['a', 'b'], ['c']⟩, ['z']) :=
  ⟨by decide,
   wire_round_trip ['a', 'b'] ['c'] ['z']
     (by decide) (by decide) (by decide) (by decide)⟩

/-- C7 (confirmed): a wire-codec reader returns a record exactly when all of
its delimited segments can be read: readLineValue succeeds iff the stream
still contains a newline, and readLineKeyValue succeeds iff a tab segment can
be read and the remainder after it contains a newline. On failure the reader
returns no record at all, so partially read data is discarded, never
surfaced. -/
theorem readers_end_of_stream (s : List Char) :
    (readLineValue s ≠ none ↔ '\n' ∈ s)
    ∧ (readLineKeyValue s ≠ none ↔
        ∃ k rest, readString '\t' s = some (k, rest) ∧ '\n' ∈ rest) := by
  constructor
  · unfold readLineValue
    cases h : readString '\n' s with
    | none =>
      have := (readString_eq_none_iff '\n' s).mp h
      simp [this]
    | some p =>
      have : '\n' ∈ s := by
        by_contra hm
        rw [(readString_eq_none_iff '\n' s).mpr hm] at h
        cases h
      simp [this]
  · cases h : readString '\t' s with
    | none =>
      have hnone : readLineKeyValue s = none := by
        unfold readLineKeyValue
        rw [h]
      rw [hnone]
      simp only [ne_eq, not_true_eq_false, false_iff]
      rintro ⟨k, rest, hk, _⟩
      exact Option.noConfusion hk
    | some p =>
      obtain ⟨k0, rest0⟩ := p
      cases hv : readString '\n' rest0 with
      | none =>
        have hnv := (readString_eq_none_iff '\n' rest0).mp hv
        have hnone : readLineKeyValue s = none := by
          simp only [readLineKeyValue, h, hv]
        rw [hnone]
        simp only [ne_eq, not_true_eq_false, false_iff]
        rintro ⟨k, rest, hk, hmem⟩
        injection hk with hpair
        cases hpair
        exact hnv hmem
      | some q =>
        have hnv : '\n' ∈ rest0 := by
          by_contra hm
          rw [(readString_eq_none_iff '\n' rest0).mpr hm] at hv
          cases hv
        have hsome : readLineKeyValue s ≠ none := by
          simp only [readLineKeyValue, h, hv]
          exact fun hx => Option.noConfusion hx
        constructor
        · intro _
          exact ⟨k0, rest0, rfl, hnv⟩
        · intro _
          exact hsome

/-- Witness for C7 at concrete streams. -/
theorem readers_end_of_stream_witness :
    readLineValue ['a', '\n'] ≠ none ∧ readLineValue ['a'] = none :=
  ⟨(readers_end_of_stream ['a', '\n']).1.mpr (by decide),
   by
    have h := (readers_end_of_stream ['a']).1
    cases hv : readLineValue ['a'] with
    | none => rfl
    | some p =>
      exact absurd (h.mp (by rw [hv]; exact fun hx => Option.noConfusion hx))
        (by decide)⟩

/-- C8 counterexample: serializing a record with an empty key does not produce
the bare line value + NEWLINE; printEmitter.Emit writes the tab
unconditionally, so the line is TAB + value + NEWLINE. -/
theorem emit_empty_key_cex :
    printEmitterEmit [] ['v'] = ['\t', 'v', '\n']
    ∧ ¬ printEmitterEmit [] ['v'] = ['v', '\n'] := by
  constructor
  · rfl
  · decide

/-- C8 (amended): printEmitter.Emit always produces key + TAB + value +
NEWLINE, for empty and non-empty keys alike; in particular an empty key
yields TAB + value + NEWLINE, not value + NEWLINE. -/
theorem emit_always_tab (w k v : List Char) :
    printEmitterEmitTo w k v = w ++ (k ++ '\t' :: (v ++ ['\n']))
    ∧ (k = [] → printEmitterEmitTo w k v = w ++ '\t' :: (v ++ ['\n'])) := by
  constructor
  · simp [printEmitterEmitTo]
  · intro hk
    subst hk
    simp [printEmitterEmitTo]

/-- Witness for C8's amended statement at a concrete record. -/
theorem emit_always_tab_witness :
    printEmitterEmitTo ['w'] [] ['v'] = ['w'] ++ '\t' :: (['v'] ++ ['\n']) :=
  (emit_always_tab ['w'] [] ['v']).2 rfl

/-- The UTF-8 bytes of a Go string, as natural numbers: []byte(key). -/
def stringBytes (s : List Char) : List Nat :=
  s.flatMap (fun c => (String.utf8EncodeChar c).map UInt8.toNat)

/-- hash/adler32.Checksum: the running pair (a, b) starts at (1, 0); for each
byte, a becomes (a + byte) mod 65521 and b becomes (b + a) mod 65521 with the
updated a; the checksum is b * 65536 + a. -/
def adler32 (bytes : List Nat) : Nat :=
  let st := bytes.foldl
    (fun (p : Nat × Nat) byt => ((p.1 + byt) % 65521, (p.2 + ((p.1 + byt) % 65521)) % 65521))
    (1, 0)
  st.2 * 65536 + st.1

/-- The partition computation of partitionEmitter.Emit (emitter.go lines
69-73): partition 0 unless more than one partition is configured, else the
adler32 checksum of the key bytes modulo the partition count. -/
def partitionFor (partitions : Nat) (key : List Char) : Nat :=
  if partitions > 1 then adler32 (stringBytes key) % partitions else 0

/-- C2 (confirmed): for every partition count P at least 1 and every key, the
partition index is a pure function of the key and count: it is 0 when P = 1,
the adler32 hash of the key modulo P otherwise, it is identical on repeated
calls with the same arguments, and it always lies in the interval from 0
inclusive to P exclusive. -/
theorem partitionFor_pure (P : Nat) (key : List Char) (hP : 1 ≤ P) :
    (P = 1 → partitionFor P key = 0)
    ∧ (1 < P → partitionFor P key = adler32 (stringBytes key) % P)
    ∧ partitionFor P key = partitionFor P key
    ∧ partitionFor P key < P := by
  refine ⟨?_, ?_, rfl, ?_⟩
  · intro h1
    subst h1
    simp [partitionFor]
  · intro h1
    simp [partitionFor, h1]
  · unfold partitionFor
    by_cases h1 : 1 < P
    · simp only [if_pos h1]
      exact Nat.mod_lt _ (Nat.lt_of_lt_of_le Nat.zero_lt_one hP)
    · simp only [if_neg h1]
      exact Nat.lt_of_lt_of_le Nat.zero_lt_one hP

/-- Witness for C2 at a concrete key and partition count. -/
theorem partitionFor_pure_witness :
    (1 ≤ 4 ∧ partitionFor 4 ['a'] < 4)
    ∧ partitionFor 4 ['a'] = adler32 (stringBytes ['a']) % 4 :=
  ⟨⟨by decide, (partitionFor_pure 4 ['a'] (by decide)).2.2.2⟩,
   (partitionFor_pure 4 ['a'] (by decide)).2.1 (by decide)⟩

/-- Go fmt.Sprintf with the %04d verb: the decimal digits, left padded with
zeros to at least four characters. -/
def format04 (p : Nat) : List Char :=
  let ds := Nat.toDigits 10 p
  List.replicate (4 - ds.length) '0' ++ ds

/-- partitionEmitter from emitter.go. The os.File handles and the wrapped
printEmitters are modelled by presence flags (a true entry is a non-nil
handle), and the records written through the per-partition sinks are logged
in order in the written field. -/
structure PartitionEmitter where
  partitions : Nat
  FileNames : List (List Char)
  fds : List Bool
  emitters : List Bool
  fileNameTemplate : List Char
  written : List (Nat × List Char × List Char)
deriving DecidableEq

/-- newPartitionEmitter (emitter.go lines 57-65): all partitions start with an
empty file name and nil handles. -/
def newPartitionEmitter (n : Nat) (template : List Char) : PartitionEmitter :=
  ⟨n, List.replicate n [], List.replicate n false, List.replicate n false, template, []⟩

/-- partitionEmitter.Emit (emitter.go lines 67-84): computes the partition for
the key, lazily creates the file and the wrapping emitter the first time that
partition is used (recording its name as template + "." + four-digit
partition), and writes the record through the partition's sink. -/
def PartitionEmitter.Emit (e : PartitionEmitter) (key value : List Char) : PartitionEmitter :=
  let p := partitionFor e.partitions key
  let e2 := if e.emitters.getD p false then e else
    { e with FileNames := e.FileNames.set p (e.fileNameTemplate ++ '.' :: format04 p),
             fds := e.fds.set p true,
             emitters := e.emitters.set p true }
  { e2 with written := e2.written ++ [(p, key, value)] }

/-- partitionEmitter.Flush (emitter.go lines 86-92): flushes every non-nil
emitter, skipping the never-opened entries; the result is the list of
partition indices whose sinks are flushed. -/
def PartitionEmitter.flushTargets (e : PartitionEmitter) : List Nat :=
  (List.range e.emitters.length).filter (fun p => e.emitters.getD p false)

/-- partitionEmitter.Close (emitter.go lines 94-100): closes every non-nil
file handle, skipping the never-opened entries; the result is the list of
partition indices whose files are closed. -/
def PartitionEmitter.closeTargets (e : PartitionEmitter) : List Nat :=
  (List.range e.fds.length).filter (fun p => e.fds.getD p false)

/-- Driving a partition emitter through a sequence of Emit calls. -/
def emitAll (e : PartitionEmitter) (es : List (List Char × List Char)) : PartitionEmitter :=
  es.foldl (fun acc kv => acc.Emit kv.1 kv.2) e

theorem getD_replicate {α : Type} :
    ∀ (n p : Nat) (a d : α), p < n → (List.replicate n a).getD p d = a := by
  intro n
  induction n with
  | zero =>
    intro p a d h
    exact absurd h (Nat.not_lt_zero p)
  | succ n ih =>
    intro p a d h
    cases p with
    | zero => rfl
    | succ p => exact ih p a d (Nat.lt_of_succ_lt_succ h)

theorem getD_set_self {α : Type} :
    ∀ (l : List α) (i : Nat) (x d : α), i < l.length → (l.set i x).getD i d = x := by
  intro l
  induction l with
  | nil =>
    intro i x d h
    exact absurd h (Nat.not_lt_zero i)
  | cons a t ih =>
    intro i x d h
    cases i with
    | zero => rfl
    | succ i => exact ih i x d (Nat.lt_of_succ_lt_succ h)

theorem getD_set_ne {α : Type} :
    ∀ (l : List α) (i j : Nat) (x d : α), i ≠ j → (l.set i x).getD j d = l.getD j d := by
  intro l
  induction l with
  | nil =>
    intro i j x d _
    simp [List.set]
  | cons a t ih =>
    intro i j x d hij
    cases i with
    | zero =>
      cases j with
      | zero => exact absurd rfl hij
      | succ j => rfl
    | succ i =>
      cases j with
      | zero => rfl
      | succ j => exact ih i j x d (fun he => hij (congrArg Nat.succ he))

/-- The shape of a partition emitter after any run of Emit calls: the opening
predicate op records which partitions have been lazily opened. -/
def OpenedInv (P : Nat) (tmpl : List Char) (op : Nat → Bool) (e : PartitionEmitter) : Prop :=
  e.partitions = P ∧ e.fileNameTemplate = tmpl
  ∧ e.emitters.length = P ∧ e.fds.length = P ∧ e.FileNames.length = P
  ∧ ∀ p, p < P →
      e.emitters.getD p false = op p ∧ e.fds.getD p false = op p
      ∧ e.FileNames.getD p [] = (if op p then tmpl ++ '.' :: format04 p else [])

theorem OpenedInv_congr {P : Nat} {tmpl : List Char} {op op2 : Nat → Bool}
    {e : PartitionEmitter} (h : ∀ q, q < P → op q = op2 q)
    (hInv : OpenedInv P tmpl op e) : OpenedInv P tmpl op2 e := by
  obtain ⟨h1, h2, h3, h4, h5, h6⟩ := hInv
  refine ⟨h1, h2, h3, h4, h5, fun p hp => ?_⟩
  obtain ⟨g1, g2, g3⟩ := h6 p hp
  rw [h p hp] at g1 g2 g3
  exact ⟨g1, g2, g3⟩

theorem OpenedInv_new (P : Nat) (tmpl : List Char) :
    OpenedInv P tmpl (fun _ => false) (newPartitionEmitter P tmpl) := by
  unfold OpenedInv newPartitionEmitter
  refine ⟨rfl, rfl, List.length_replicate _ _, List.length_replicate _ _,
    List.length_replicate _ _, fun p hp => ?_⟩
  refine ⟨getD_replicate P p false false hp, getD_replicate P p false false hp, ?_⟩
  rw [getD_replicate P p ([] : List Char) [] hp]
  rfl

theorem OpenedInv_emit {P : Nat} {tmpl : List Char} {op : Nat → Bool}
    {e : PartitionEmitter} (key value : List Char) (hP : 1 ≤ P)
    (hInv : OpenedInv P tmpl op e) :
    OpenedInv P tmpl (fun q => op q || (partitionFor P key == q)) (e.Emit key value) := by
  obtain ⟨h1, h2, h3, h4, h5, h6⟩ := hInv
  have hplt : partitionFor P key < P := (partitionFor_pure P key hP).2.2.2
  have hbf : ∀ p, partitionFor P key ≠ p → (partitionFor P key == p) = false := by
    intro p hpq
    cases hb : (partitionFor P key == p) with
    | false => rfl
    | true => exact absurd (eq_of_beq hb) hpq
  by_cases hopen : e.emitters.getD (partitionFor P key) false = true
  · have hEmit : e.Emit key value
        = { e with written := e.written ++ [(partitionFor P key, key, value)] } := by
      simp only [PartitionEmitter.Emit, h1]
      rw [if_pos hopen, h1]
    have hop : op (partitionFor P key) = true := by
      rw [← (h6 _ hplt).1]
      exact hopen
    have hEq : ∀ p, (op p || (partitionFor P key == p)) = op p := by
      intro p
      by_cases hpq : partitionFor P key = p
      · subst hpq
        simp [hop]
      · rw [hbf p hpq, Bool.or_false]
    rw [hEmit]
    refine ⟨h1, h2, h3, h4, h5, fun p hp => ?_⟩
    obtain ⟨g1, g2, g3⟩ := h6 p hp
    refine ⟨?_, ?_, ?_⟩
    · show e.emitters.getD p false = (op p || (partitionFor P key == p))
      rw [hEq p]
      exact g1
    · show e.fds.getD p false = (op p || (partitionFor P key == p))
      rw [hEq p]
      exact g2
    · show e.FileNames.getD p []
        = (if (op p || (partitionFor P key == p)) = true then tmpl ++ '.' :: format04 p else [])
      rw [hEq p]
      exact g3
  · have hopf : e.emitters.getD (partitionFor P key) false = false :=
      Bool.eq_false_iff.mpr hopen
    have hEmit : e.Emit key value
        = { e with
              FileNames := e.FileNames.set (partitionFor P key)
                (e.fileNameTemplate ++ '.' :: format04 (partitionFor P key)),
              fds := e.fds.set (partitionFor P key) true,
              emitters := e.emitters.set (partitionFor P key) true,
              written := e.written ++ [(partitionFor P key, key, value)] } := by
      simp only [PartitionEmitter.Emit, h1]
      rw [if_neg hopen]
    rw [hEmit]
    refine ⟨h1, h2, ?_, ?_, ?_, fun p hp => ?_⟩
    · show (e.emitters.set (partitionFor P key) true).length = P
      rw [List.length_set]
      exact h3
    · show (e.fds.set (partitionFor P key) true).length = P
      rw [List.length_set]
      exact h4
    · show (e.FileNames.set (partitionFor P key)
          (e.fileNameTemplate ++ '.' :: format04 (partitionFor P key))).length = P
      rw [List.length_set]
      exact h5
    · obtain ⟨g1, g2, g3⟩ := h6 p hp
      by_cases hpq : partitionFor P key = p
      · subst hpq
        refine ⟨?_, ?_, ?_⟩
        · show (e.emitters.set (partitionFor P key) true).getD (partitionFor P key) false
            = (op (partitionFor P key) || (partitionFor P key == partitionFor P key))
          rw [getD_set_self _ _ _ _ (by rw [h3]; exact hplt)]
          simp
        · show (e.fds.set (partitionFor P key) true).getD (partitionFor P key) false
            = (op (partitionFor P key) || (partitionFor P key == partitionFor P key))
          rw [getD_set_self _ _ _ _ (by rw [h4]; exact hplt)]
          simp
        · show (e.FileNames.set (partitionFor P key)
              (e.fileNameTemplate ++ '.' :: format04 (partitionFor P key))).getD
                (partitionFor P key) []
            = (if (op (partitionFor P key) || (partitionFor P key == partitionFor P key)) = true
               then tmpl ++ '.' :: format04 (partitionFor P key) else [])
          rw [getD_set_self _ _ _ _ (by rw [h5]; exact hplt)]
          simp [h2]
      · refine ⟨?_, ?_, ?_⟩
        · show (e.emitters.set (partitionFor P key) true).getD p false
            = (op p || (partitionFor P key == p))
          rw [getD_set_ne _ _ _ _ _ hpq, hbf p hpq, Bool.or_false]
          exact g1
        · show (e.fds.set (partitionFor P key) true).getD p false
            = (op p || (partitionFor P key == p))
          rw [getD_set_ne _ _ _ _ _ hpq, hbf p hpq, Bool.or_false]
          exact g2
        · show (e.FileNames.set (partitionFor P key)
              (e.fileNameTemplate ++ '.' :: format04 (partitionFor P key))).getD p []
            = (if (op p || (partitionFor P key == p)) = true
               then tmpl ++ '.' :: format04 p else [])
          rw [getD_set_ne _ _ _ _ _ hpq, hbf p hpq, Bool.or_false]
          exact g3

theorem OpenedInv_emitAll {P : Nat} {tmpl : List Char} (hP : 1 ≤ P) :
    ∀ (es : List (List Char × List Char)) (op : Nat → Bool) (e : PartitionEmitter),
      OpenedInv P tmpl op e →
      OpenedInv P tmpl
        (fun q => op q || es.any (fun kv => partitionFor P kv.1 == q)) (emitAll e es) := by
  intro es
  induction es with
  | nil =>
    intro op e hInv
    unfold emitAll
    simp only [List.foldl_nil, List.any_nil, Bool.or_false]
    exact hInv
  | cons kv es ih =>
    intro op e hInv
    have step := OpenedInv_emit kv.1 kv.2 hP hInv
    have rest := ih (fun q => op q || (partitionFor P kv.1 == q)) (e.Emit kv.1 kv.2) step
    refine OpenedInv_congr (fun q _ => ?_) rest
    simp [Bool.or_assoc]

/-- C5 (confirmed): after any sequence of Emit calls on a partition emitter
with P partitions, Flush and Close are defined on the never-opened entries
(they skip the nil handles) and act on exactly the same set of sinks, namely
the partitions some key was routed to; the FileNames entry of a partition is
non-empty exactly when some Emit routed a key there, in which case it is the
template followed by a dot and the partition number as four digits. -/
theorem partitionEmitter_lazy_sinks (P : Nat) (tmpl : List Char)
    (es : List (List Char × List Char)) (hP : 1 ≤ P) :
    ((emitAll (newPartitionEmitter P tmpl) es).flushTargets
        = (emitAll (newPartitionEmitter P tmpl) es).closeTargets)
    ∧ (∀ p, p ∈ (emitAll (newPartitionEmitter P tmpl) es).flushTargets ↔
        (p < P ∧ es.any (fun kv => partitionFor P kv.1 == p) = true))
    ∧ (∀ p, p < P →
        ((emitAll (newPartitionEmitter P tmpl) es).FileNames.getD p [] ≠ [] ↔
          es.any (fun kv => partitionFor P kv.1 == p) = true))
    ∧ (∀ p, p < P → es.any (fun kv => partitionFor P kv.1 == p) = true →
        (emitAll (newPartitionEmitter P tmpl) es).FileNames.getD p []
          = tmpl ++ '.' :: format04 p) := by
  have hInv := OpenedInv_emitAll hP es (fun _ => false) (newPartitionEmitter P tmpl)
    (OpenedInv_new P tmpl)
  have hInv2 : OpenedInv P tmpl
      (fun q => es.any (fun kv => partitionFor P kv.1 == q))
      (emitAll (newPartitionEmitter P tmpl) es) :=
    OpenedInv_congr (fun q _ => by simp) hInv
  obtain ⟨h1, h2, h3, h4, h5, h6x⟩ := hInv2
  have h6 : ∀ p, p < P →
      (emitAll (newPartitionEmitter P tmpl) es).emitters.getD p false
          = es.any (fun kv => partitionFor P kv.1 == p)
      ∧ (emitAll (newPartitionEmitter P tmpl) es).fds.getD p false
          = es.any (fun kv => partitionFor P kv.1 == p)
      ∧ (emitAll (newPartitionEmitter P tmpl) es).FileNames.getD p []
          = (if es.any (fun kv => partitionFor P kv.1 == p) = true
             then tmpl ++ '.' :: format04 p else []) :=
    fun p hp => h6x p hp
  constructor
  · unfold PartitionEmitter.flushTargets PartitionEmitter.closeTargets
    rw [h3, h4]
    refine List.filter_congr (fun p hp => ?_)
    have hplt : p < P := List.mem_range.mp hp
    rw [(h6 p hplt).1, (h6 p hplt).2.1]
  constructor
  · intro p
    unfold PartitionEmitter.flushTargets
    rw [h3]
    simp only [List.mem_filter, List.mem_range]
    constructor
    · rintro ⟨hlt, hval⟩
      exact ⟨hlt, by rw [← (h6 p hlt).1]; exact hval⟩
    · rintro ⟨hlt, hval⟩
      exact ⟨hlt, by rw [(h6 p hlt).1]; exact hval⟩
  constructor
  · intro p hplt
    rw [(h6 p hplt).2.2]
    by_cases ha : es.any (fun kv => partitionFor P kv.1 == p) = true
    · simp [ha]
    · simp only [Bool.not_eq_true] at ha
      simp [ha]
  · intro p hplt ha
    rw [(h6 p hplt).2.2, if_pos ha]

/-- Witness for C5 at a concrete emitter run. -/
theorem partitionEmitter_lazy_sinks_witness :
    (1 ≤ 2)
    ∧ (emitAll (newPartitionEmitter 2 ['t']) [(['a'], ['1'])]).flushTargets
        = (emitAll (newPartitionEmitter 2 ['t']) [(['a'], ['1'])]).closeTargets :=
  ⟨by decide, (partitionEmitter_lazy_sinks 2 ['t'] [(['a'], ['1'])] (by decide)).1⟩

/-- The loop and the final call of reducer (runners.go lines 320-347), driven
over the sequence of records readLineKeyValue yields before its first
failure. currentKey starts as the empty Go string and values as the empty
slice. Per record: if the key equals currentKey the value is appended;
otherwise, only when currentKey is non-empty, Reduce is invoked with the
pending key and values and the values are reset; in both cases currentKey
becomes the record's key and the value is appended. After the loop Reduce is
invoked once more with whatever is pending. The result is the ordered list of
Reduce invocations as (key, values) pairs. -/
def reduceRecords : List KeyValue → List Char → List (List Char) → List (List Char × List (List Char))
  | [], cur, values => [(cur, values)]
  | mkv :: rest, cur, values =>
    if cur = mkv.Key then reduceRecords rest cur (values ++ [mkv.Value])
    else if cur = [] then reduceRecords rest mkv.Key (values ++ [mkv.Value])
    else (cur, values) :: reduceRecords rest mkv.Key [mkv.Value]

/-- All Reduce invocations of one reducer run, in order, the unconditional
final call included. -/
def reducerCalls (recs : List KeyValue) : List (List Char × List (List Char)) :=
  reduceRecords recs [] []

/-- Modelled from the spec (section 8 and 4.4): grouping of a record stream
into runs of equal adjacent keys, each run paired with its values in reading
order; the specification side of the C1 refinement. runsAux carries the key
and values of the currently open run. -/
def runsAux (k : List Char) (vs : List (List Char)) :
    List KeyValue → List (List Char × List (List Char))
  | [] => [(k, vs)]
  | kv :: rest =>
    if k = kv.Key then runsAux k (vs ++ [kv.Value]) rest
    else (k, vs) :: runsAux kv.Key [kv.Value] rest

/-- Modelled from the spec: the adjacent-key runs of a record stream. -/
def specGroups : List KeyValue → List (List Char × List (List Char))
  | [] => []
  | kv :: rest => runsAux kv.Key [kv.Value] rest

/-- Prepend extra values to the first group of a grouped list. -/
def prependVals (pre : List (List Char)) :
    List (List Char × List (List Char)) → List (List Char × List (List Char))
  | [] => []
  | (k, vs) :: gs => (k, pre ++ vs) :: gs

/-- The record stream a grouped list stands for. -/
def flattenGroups (gs : List (List Char × List (List Char))) : List KeyValue :=
  gs.flatMap (fun g => g.2.map (fun v => KeyValue.mk g.1 v))

theorem reduceRecords_ne_nil :
    ∀ (recs : List KeyValue) (cur : List Char) (values : List (List Char)),
      reduceRecords recs cur values ≠ [] := by
  intro recs
  induction recs with
  | nil =>
    intro cur values
    simp [reduceRecords]
  | cons kv rest ih =>
    intro cur values
    rw [reduceRecords]
    by_cases h1 : cur = kv.Key
    · rw [if_pos h1]
      exact ih cur (values ++ [kv.Value])
    · rw [if_neg h1]
      by_cases h2 : cur = []
      · rw [if_pos h2]
        exact ih kv.Key (values ++ [kv.Value])
      · rw [if_neg h2]
        simp

theorem reduceRecords_eq_runsAux :
    ∀ (recs : List KeyValue) (cur : List Char) (values : List (List Char)),
      cur ≠ [] → (∀ kv ∈ recs, kv.Key ≠ []) →
      reduceRecords recs cur values = runsAux cur values recs := by
  intro recs
  induction recs with
  | nil =>
    intro cur values _ _
    rfl
  | cons kv rest ih =>
    intro cur values hcur hkeys
    have hkv : kv.Key ≠ [] := hkeys kv (List.mem_cons_self kv rest)
    have hrest : ∀ kv2 ∈ rest, kv2.Key ≠ [] :=
      fun kv2 hm => hkeys kv2 (List.mem_cons_of_mem kv hm)
    rw [reduceRecords, runsAux]
    by_cases h1 : cur = kv.Key
    · rw [if_pos h1, if_pos h1]
      exact ih cur (values ++ [kv.Value]) hcur hrest
    · rw [if_neg h1, if_neg h1, if_neg hcur]
      rw [ih kv.Key [kv.Value] hkv hrest]

theorem reduceRecords_leading_empties :
    ∀ (evs : List (List Char)) (recs : List KeyValue) (vals : List (List Char)),
      reduceRecords ((evs.map (fun v => KeyValue.mk [] v)) ++ recs) [] vals
        = reduceRecords recs [] (vals ++ evs) := by
  intro evs
  induction evs with
  | nil =>
    intro recs vals
    simp
  | cons v evs ih =>
    intro recs vals
    rw [List.map_cons, List.cons_append, reduceRecords]
    rw [if_pos rfl]
    rw [ih recs (vals ++ [v])]
    rw [List.append_assoc]
    rfl

theorem runsAux_prepend :
    ∀ (recs : List KeyValue) (k : List Char) (pre vs : List (List Char)),
      runsAux k (pre ++ vs) recs = prependVals pre (runsAux k vs recs) := by
  intro recs
  induction recs with
  | nil =>
    intro k pre vs
    rfl
  | cons kv rest ih =>
    intro k pre vs
    rw [runsAux, runsAux]
    by_cases h1 : k = kv.Key
    · rw [if_pos h1, if_pos h1, List.append_assoc]
      exact ih k pre (vs ++ [kv.Value])
    · rw [if_neg h1, if_neg h1]
      rfl

theorem reduceRecords_dropLast_keys :
    ∀ (recs : List KeyValue) (cur : List Char) (values : List (List Char)),
      ∀ c ∈ (reduceRecords recs cur values).dropLast, c.1 ≠ [] := by
  intro recs
  induction recs with
  | nil =>
    intro cur values c hc
    simp [reduceRecords] at hc
  | cons kv rest ih =>
    intro cur values c hc
    rw [reduceRecords] at hc
    by_cases h1 : cur = kv.Key
    · rw [if_pos h1] at hc
      exact ih cur (values ++ [kv.Value]) c hc
    · rw [if_neg h1] at hc
      by_cases h2 : cur = []
      · rw [if_pos h2] at hc
        exact ih kv.Key (values ++ [kv.Value]) c hc
      · rw [if_neg h2] at hc
        rw [List.dropLast_cons_of_ne_nil (reduceRecords_ne_nil rest kv.Key [kv.Value])] at hc
        rcases List.mem_cons.mp hc with hceq | hcm
        · rw [hceq]
          exact h2
        · exact ih kv.Key [kv.Value] c hcm

theorem flattenGroups_runsAux :
    ∀ (recs : List KeyValue) (k : List Char) (vs : List (List Char)),
      flattenGroups (runsAux k vs recs) = vs.map (fun v => KeyValue.mk k v) ++ recs := by
  intro recs
  induction recs with
  | nil =>
    intro k vs
    simp [runsAux, flattenGroups]
  | cons kv rest ih =>
    intro k vs
    rw [runsAux]
    by_cases h1 : k = kv.Key
    · rw [if_pos h1, ih k (vs ++ [kv.Value])]
      subst h1
      simp
    · rw [if_neg h1]
      unfold flattenGroups
      rw [List.flatMap_cons]
      have := ih kv.Key [kv.Value]
      unfold flattenGroups at this
      rw [this]
      simp

theorem flattenGroups_specGroups (recs : List KeyValue) :
    flattenGroups (specGroups recs) = recs := by
  cases recs with
  | nil => rfl
  | cons kv rest =>
    rw [specGroups, flattenGroups_runsAux]
    simp

theorem runsAux_snd_ne_nil :
    ∀ (recs : List KeyValue) (k : List Char) (vs : List (List Char)),
      vs ≠ [] → ∀ g ∈ runsAux k vs recs, g.2 ≠ [] := by
  intro recs
  induction recs with
  | nil =>
    intro k vs hvs g hg
    rw [runsAux] at hg
    rcases List.mem_singleton.mp hg with hg2
    rw [hg2]
    exact hvs
  | cons kv rest ih =>
    intro k vs hvs g hg
    rw [runsAux] at hg
    by_cases h1 : k = kv.Key
    · rw [if_pos h1] at hg
      exact ih k (vs ++ [kv.Value]) (by simp) g hg
    · rw [if_neg h1] at hg
      rcases List.mem_cons.mp hg with hceq | hcm
      · rw [hceq]
        exact hvs
      · exact ih kv.Key [kv.Value] (by simp) g hcm

theorem mem_keys_of_flatten {gs : List (List Char × List (List Char))} {kv : KeyValue}
    (h : kv ∈ flattenGroups gs) : kv.Key ∈ gs.map Prod.fst := by
  unfold flattenGroups at h
  rcases List.mem_flatMap.mp h with ⟨g, hg, hv⟩
  rcases List.mem_map.mp hv with ⟨v, _, hveq⟩
  rcases hveq
  exact List.mem_map.mpr ⟨g, hg, rfl⟩

theorem filter_eq_nil_of_not_mem_keys :
    ∀ (gs : List (List Char × List (List Char))) (key : List Char),
      key ∉ gs.map Prod.fst → gs.filter (fun g => g.1 == key) = [] := by
  intro gs
  induction gs with
  | nil =>
    intro key _
    rfl
  | cons g gs ih =>
    intro key hkey
    have h1 : ¬ g.1 = key := fun he => hkey (by simp [he])
    have h2 : key ∉ gs.map Prod.fst := fun hm => hkey (by simp [hm])
    rw [List.filter_cons]
    have hb : (g.1 == key) = false := by
      cases hb2 : (g.1 == key) with
      | false => rfl
      | true => exact absurd (eq_of_beq hb2) h1
    rw [hb]
    simp only [Bool.false_eq_true, if_false]
    exact ih key h2

theorem filter_flattenGroups :
    ∀ (gs : List (List Char × List (List Char))) (key : List Char),
      ((flattenGroups gs).filter (fun kv => kv.Key == key)).map KeyValue.Value
        = (gs.filter (fun g => g.1 == key)).flatMap (fun g => g.2) := by
  intro gs
  induction gs with
  | nil =>
    intro key
    rfl
  | cons g gs ih =>
    intro key
    unfold flattenGroups
    rw [List.flatMap_cons, List.filter_append, List.map_append]
    have hmapped : (g.2.map (fun v => KeyValue.mk g.1 v)).filter (fun kv => kv.Key == key)
        = (g.2.filter (fun _ => g.1 == key)).map (fun v => KeyValue.mk g.1 v) := by
      rw [List.filter_map]
      rfl
    rw [hmapped]
    unfold flattenGroups at ih
    rw [ih key, List.filter_cons]
    cases hb : (g.1 == key) with
    | true =>
      simp only [if_true]
      rw [List.flatMap_cons]
      simp only [List.filter_true, List.map_map]
      have hcomp : (KeyValue.Value ∘ fun v => KeyValue.mk g.1 v) = id := by
        funext v
        rfl
      rw [hcomp, List.map_id]
    | false =>
      simp only [Bool.false_eq_true, if_false]
      simp

theorem filter_singleton_of_nodup :
    ∀ (gs : List (List Char × List (List Char))) (key : List Char),
      (gs.map Prod.fst).Nodup → key ∈ gs.map Prod.fst →
      ∃ vs, gs.filter (fun g => g.1 == key) = [(key, vs)]
        ∧ (gs.filter (fun g => g.1 == key)).flatMap (fun g => g.2) = vs := by
  intro gs
  induction gs with
  | nil =>
    intro key _ hk
    simp at hk
  | cons g gs ih =>
    intro key hnd hk
    rw [List.map_cons, List.nodup_cons] at hnd
    by_cases hg : g.1 = key
    · refine ⟨g.2, ?_, ?_⟩
      · rw [List.filter_cons]
        have hb : (g.1 == key) = true := beq_iff_eq.mpr hg
        rw [hb]
        simp only [if_true]
        rw [filter_eq_nil_of_not_mem_keys gs key (by rw [← hg]; exact hnd.1)]
        rw [← hg]
      · rw [List.filter_cons]
        have hb : (g.1 == key) = true := beq_iff_eq.mpr hg
        rw [hb]
        simp only [if_true]
        rw [filter_eq_nil_of_not_mem_keys gs key (by rw [← hg]; exact hnd.1)]
        simp
    · have hk2 : key ∈ gs.map Prod.fst := by
        rcases List.mem_cons.mp hk with h | h
        · exact absurd h.symm hg
        · exact h
      rcases ih key hnd.2 hk2 with ⟨vs, hfil, hfl⟩
      refine ⟨vs, ?_, ?_⟩
      · rw [List.filter_cons]
        have hb : (g.1 == key) = false := by
          cases hb2 : (g.1 == key) with
          | false => rfl
          | true => exact absurd (eq_of_beq hb2) hg
        rw [hb]
        simp only [Bool.false_eq_true, if_false]
        exact hfil
      · rw [List.filter_cons]
        have hb : (g.1 == key) = false := by
          cases hb2 : (g.1 == key) with
          | false => rfl
          | true => exact absurd (eq_of_beq hb2) hg
        rw [hb]
        simp only [Bool.false_eq_true, if_false]
        exact hfl

/-- C1 (corrected): for a pre-sorted stream of records whose keys are all
non-empty, the reducer invokes Reduce exactly once per distinct key with the
full ordered values of that key, and for a wholly empty stream it invokes
Reduce exactly once with an empty key and an empty value sequence. The
restriction to non-empty keys is forced: a record with an empty key is
indistinguishable from the initial no-current-key state (see the C9
analysis). -/
theorem reducer_groups_spec (recs : List KeyValue)
    (hkeys : ∀ kv ∈ recs, kv.Key ≠ [])
    (hadj : ((specGroups recs).map Prod.fst).Nodup) :
    (recs = [] → reducerCalls recs = [([], [])])
    ∧ (recs ≠ [] → reducerCalls recs = specGroups recs)
    ∧ (recs ≠ [] → ∀ c ∈ reducerCalls recs, c.1 ∈ recs.map KeyValue.Key)
    ∧ (∀ key, key ∈ recs.map KeyValue.Key →
        (reducerCalls recs).filter (fun c => c.1 == key)
          = [(key, (recs.filter (fun kv => kv.Key == key)).map KeyValue.Value)]) := by
  cases recs with
  | nil =>
    refine ⟨fun _ => rfl, fun h => absurd rfl h, fun h => absurd rfl h, ?_⟩
    intro key hk
    simp at hk
  | cons kv rest =>
    have hkv : kv.Key ≠ [] := hkeys kv (List.mem_cons_self kv rest)
    have hrest : ∀ kv2 ∈ rest, kv2.Key ≠ [] :=
      fun kv2 hm => hkeys kv2 (List.mem_cons_of_mem kv hm)
    have heq : reducerCalls (kv :: rest) = specGroups (kv :: rest) := by
      unfold reducerCalls
      rw [reduceRecords]
      rw [if_neg (fun he => hkv he.symm), if_pos rfl]
      rw [reduceRecords_eq_runsAux rest kv.Key ([] ++ [kv.Value]) hkv hrest]
      rfl
    refine ⟨fun h => absurd h (List.cons_ne_nil kv rest), fun _ => heq, ?_, ?_⟩
    · intro _ c hc
      rw [heq] at hc
      have hcr : c ∈ runsAux kv.Key [kv.Value] rest := hc
      have hne : c.2 ≠ [] :=
        runsAux_snd_ne_nil rest kv.Key [kv.Value] (by simp) c hcr
      obtain ⟨v, hv⟩ := List.exists_mem_of_ne_nil c.2 hne
      have hmemf : KeyValue.mk c.1 v ∈ flattenGroups (specGroups (kv :: rest)) := by
        unfold flattenGroups
        exact List.mem_flatMap.mpr ⟨c, hc, List.mem_map.mpr ⟨v, hv, rfl⟩⟩
      rw [flattenGroups_specGroups] at hmemf
      exact List.mem_map.mpr ⟨KeyValue.mk c.1 v, hmemf, rfl⟩
    · intro key hkmem
      have hflat := flattenGroups_specGroups (kv :: rest)
      have hkeymem : key ∈ (specGroups (kv :: rest)).map Prod.fst := by
        rcases List.mem_map.mp hkmem with ⟨kv2, hkv2, hkeq⟩
        have hm2 : kv2 ∈ flattenGroups (specGroups (kv :: rest)) := by
          rw [hflat]
          exact hkv2
        have hm3 := mem_keys_of_flatten hm2
        rw [hkeq] at hm3
        exact hm3
      rcases filter_singleton_of_nodup (specGroups (kv :: rest)) key hadj hkeymem
        with ⟨vs, hfil, hfl⟩
      have hval := filter_flattenGroups (specGroups (kv :: rest)) key
      rw [hflat, hfil] at hval
      rw [List.flatMap_cons, List.flatMap_nil, List.append_nil] at hval
      rw [heq, hfil, hval]

/-- Witness for C1's amended statement at a concrete pre-sorted stream. -/
theorem reducer_groups_spec_witness :
    (∀ kv ∈ ([⟨['a'], ['1']⟩, ⟨['a'], ['2']⟩, ⟨['b'], ['3']⟩] : List KeyValue), kv.Key ≠ [])
    ∧ (reducerCalls [⟨['a'], ['1']⟩, ⟨['a'], ['2']⟩, ⟨['b'], ['3']⟩]).filter
        (fun c => c.1 == ['a'])
      = [(['a'], [['1'], ['2']])] := by
  refine ⟨by decide, ?_⟩
  have h := reducer_groups_spec [⟨['a'], ['1']⟩, ⟨['a'], ['2']⟩, ⟨['b'], ['3']⟩]
    (by decide) (by decide)
  have h2 := h.2.2.2 ['a'] (by decide)
  rw [h2]
  rfl

/-- C1 counterexample: in the pre-sorted stream with records (empty key, "v")
then ("a", "w"), the distinct key "" receives no Reduce call of its own, and
the call for "a" carries "v" as well, so Reduce is not invoked once per
distinct key with exactly that key's values. -/
theorem reducer_empty_key_cex :
    reducerCalls [⟨[], ['v']⟩, ⟨['a'], ['w']⟩] = [(['a'], [['v'], ['w']])]
    ∧ (reducerCalls [⟨[], ['v']⟩, ⟨['a'], ['w']⟩]).filter
        (fun c => c.1 == ([] : List Char)) = []
    ∧ ¬ (reducerCalls [⟨[], ['v']⟩, ⟨['a'], ['w']⟩]).filter
        (fun c => c.1 == ['a']) = [(['a'], [['w']])] := by
  refine ⟨rfl, rfl, ?_⟩
  decide

/-- C9 (confirmed): during the reducer loop no Reduce call carries an empty
key (the empty key is indistinguishable from the initial no-current-key
state, so only the unconditional final call can carry it), and the values of
leading empty-key records are accumulated and then delivered inside the
first Reduce call for the next distinct non-empty key, prepended to that
key's own values; if no such key follows, they are delivered by the final
call under the empty key. -/
theorem reducer_empty_key_merge (evs : List (List Char)) (recs : List KeyValue)
    (h : ∀ kv ∈ recs, kv.Key ≠ []) :
    (∀ recs2 : List KeyValue, ∀ c ∈ (reducerCalls recs2).dropLast, c.1 ≠ [])
    ∧ reducerCalls ((evs.map (fun v => KeyValue.mk [] v)) ++ recs)
        = (match recs with
           | [] => [([], evs)]
           | kv :: rest => prependVals evs (specGroups (kv :: rest))) := by
  constructor
  · intro recs2 c hc
    exact reduceRecords_dropLast_keys recs2 [] [] c hc
  · unfold reducerCalls
    rw [reduceRecords_leading_empties evs recs []]
    cases recs with
    | nil =>
      rfl
    | cons kv rest =>
      have hkv : kv.Key ≠ [] := h kv (List.mem_cons_self kv rest)
      have hrest : ∀ kv2 ∈ rest, kv2.Key ≠ [] :=
        fun kv2 hm => h kv2 (List.mem_cons_of_mem kv hm)
      rw [reduceRecords]
      rw [if_neg (fun he => hkv he.symm), if_pos rfl]
      rw [reduceRecords_eq_runsAux rest kv.Key (([] ++ evs) ++ [kv.Value]) hkv hrest]
      have hnil : (([] : List (List Char)) ++ evs) ++ [kv.Value] = evs ++ [kv.Value] := by
        simp
      rw [hnil]
      exact runsAux_prepend rest kv.Key evs [kv.Value]

/-- Witness for C9 at a concrete stream with one leading empty-key record. -/
theorem reducer_empty_key_merge_witness :
    (∀ kv ∈ ([⟨['a'], ['1']⟩] : List KeyValue), kv.Key ≠ [])
    ∧ reducerCalls ((([['x']] : List (List Char)).map (fun v => KeyValue.mk [] v))
        ++ [⟨['a'], ['1']⟩])
      = prependVals [['x']] (specGroups [⟨['a'], ['1']⟩]) :=
  ⟨by decide, (reducer_empty_key_merge [['x']] [⟨['a'], ['1']⟩] (by decide)).2⟩

/-- One invocation of the job contract: Map, MapFinal or Reduce. -/
inductive JobCall where
  | map (key value : List Char) : JobCall
  | mapFinal : JobCall
  | reduce (key : List Char) (values : List (List Char)) : JobCall
deriving DecidableEq

theorem readString_rest_length_lt (d : Char) :
    ∀ (s k r : List Char), readString d s = some (k, r) → r.length < s.length := by
  intro s
  induction s with
  | nil =>
    intro k r h
    cases h
  | cons c rest ih =>
    intro k r h
    rw [readString] at h
    by_cases hc : c = d
    · rw [if_pos hc] at h
      injection h with hp
      cases hp
      simp
    · rw [if_neg hc] at h
      cases hm : readString d rest with
      | none =>
        rw [hm] at h
        cases h
      | some p =>
        obtain ⟨p1, p2⟩ := p
        have hlt := ih p1 p2 hm
        rw [hm] at h
        injection h with hp
        cases hp
        exact Nat.lt_succ_of_lt hlt

theorem readLineValue_rest_lt {s : List Char} {kv : KeyValue} {r : List Char}
    (h : readLineValue s = some (kv, r)) : r.length < s.length := by
  unfold readLineValue at h
  cases hm : readString '\n' s with
  | none =>
    rw [hm] at h
    cases h
  | some p =>
    obtain ⟨line, rest⟩ := p
    have hlt := readString_rest_length_lt '\n' s line rest hm
    rw [hm] at h
    injection h with hp
    cases hp
    exact hlt

/-- mapper (runners.go lines 299-311): repeatedly reads a value-only line and
invokes Map with an empty key and the line's value, until the first read
failure, then stops. The result is the ordered sequence of job invocations
the map phase runner performs; it performs no other invocation, in
particular no MapFinal. -/
def mapperTrace (s : List Char) : List JobCall :=
  match h : readLineValue s with
  | none => []
  | some (kv, rest) => JobCall.map [] kv.Value :: mapperTrace rest
termination_by s.length
decreasing_by
  exact readLineValue_rest_lt h

theorem mapperTrace_eq_none {s : List Char} (h : readLineValue s = none) :
    mapperTrace s = [] := by
  unfold mapperTrace
  split
  · rfl
  · rename_i kv rest heq
    rw [h] at heq
    cases heq

theorem mapperTrace_eq_some {s : List Char} {kv : KeyValue} {rest : List Char}
    (h : readLineValue s = some (kv, rest)) :
    mapperTrace s = JobCall.map [] kv.Value :: mapperTrace rest := by
  rw [mapperTrace.eq_def]
  split
  · rename_i heq
    rw [h] at heq
    cases heq
  · rename_i kv2 rest2 heq
    rw [h] at heq
    injection heq with hp
    cases hp
    rfl

theorem mapperTrace_only_map_fuel :
    ∀ (n : Nat) (s : List Char), s.length ≤ n →
      ∀ c ∈ mapperTrace s, ∃ v, c = JobCall.map [] v := by
  intro n
  induction n with
  | zero =>
    intro s hs c hc
    have hnil : s = [] := List.eq_nil_of_length_eq_zero (Nat.le_zero.mp hs)
    subst hnil
    rw [mapperTrace_eq_none (show readLineValue [] = none from rfl)] at hc
    cases hc
  | succ n ih =>
    intro s hs c hc
    cases h : readLineValue s with
    | none =>
      rw [mapperTrace_eq_none h] at hc
      cases hc
    | some p =>
      obtain ⟨kv, rest⟩ := p
      rw [mapperTrace_eq_some h] at hc
      rcases List.mem_cons.mp hc with hceq | hcm
      · exact ⟨kv.Value, hceq⟩
      · have hlt := readLineValue_rest_lt h
        exact ih rest (Nat.le_of_lt_succ (Nat.lt_of_lt_of_le hlt hs)) c hcm

/-- One scheduling event of the standalone map stage. -/
inductive MapEvent where
  | mapRun (worker : Nat) : MapEvent
  | mapFinalRun (worker : Nat) : MapEvent
  | flushE (worker : Nat) : MapEvent
  | closeE (worker : Nat) : MapEvent
deriving DecidableEq

/-- The sequential trace of the map worker for input file i (runners.go lines
184-201): run the mapper over the file into the worker's own partition
emitter, then flush and close that emitter. No MapFinal happens here. -/
def fileWorkerTrace (i : Nat) : List MapEvent :=
  [MapEvent.mapRun i, MapEvent.flushE i, MapEvent.closeE i]

/-- The separate finalization step (runners.go lines 208-212), launched after
every file worker has been joined: run mapper_final into its own fresh
partition emitter, indexed by the number of input files, then flush and close
it. -/
def finalStepTrace (n : Nat) : List MapEvent :=
  [MapEvent.mapFinalRun n, MapEvent.flushE n, MapEvent.closeE n]

/-- The whole multi-file map stage for n input files (runners.go lines
182-213): all file worker traces (the join barrier at lines 204-206 orders
them all before what follows), then the one finalization step. -/
def mapStageFiles (n : Nat) : List MapEvent :=
  ((List.range n).map fileWorkerTrace).flatten ++ finalStepTrace n

/-- The stdin map stage (runners.go lines 174-180): one worker maps stdin,
then MapFinal runs through that same emitter, then it is flushed and
closed. -/
def mapStageStdin : List MapEvent :=
  [MapEvent.mapRun 0, MapEvent.mapFinalRun 0, MapEvent.flushE 0, MapEvent.closeE 0]

/-- Recognizes MapFinal invocations among stage events. -/
def isMapFinal : MapEvent → Bool
  | MapEvent.mapFinalRun _ => true
  | _ => false

/-- C4 counterexample: with two input files the standalone map stage performs
a single MapFinal invocation, not one per map worker, and neither file
worker's own trace contains a MapFinal at all. -/
theorem mapFinal_per_worker_cex :
    ((mapStageFiles 2).filter isMapFinal).length = 1
    ∧ ¬ ((mapStageFiles 2).filter isMapFinal).length = 2
    ∧ (fileWorkerTrace 0).filter isMapFinal = []
    ∧ (fileWorkerTrace 1).filter isMapFinal = [] := by
  decide

/-- C4 (amended): in standalone multi-file runs the per-file map workers
never invoke MapFinal; after all file workers have finished, MapFinal is
invoked exactly once globally, in a separate step with its own fresh emitter
(indexed past every file worker) which is then flushed and closed. In the
stdin case MapFinal runs once, after the single worker's input is exhausted
and before that worker's emitter is flushed and closed. The map phase runner
itself never calls MapFinal. -/
theorem mapFinal_once_global (n : Nat) (hn : 1 ≤ n) :
    ((mapStageFiles n).filter isMapFinal = [MapEvent.mapFinalRun n])
    ∧ (∀ i, (fileWorkerTrace i).filter isMapFinal = [])
    ∧ (∃ pre, mapStageFiles n = pre ++ finalStepTrace n
        ∧ pre.filter isMapFinal = [] ∧ ∀ i, i < n → MapEvent.mapRun i ∈ pre)
    ∧ (mapStageStdin.filter isMapFinal = [MapEvent.mapFinalRun 0]
        ∧ mapStageStdin.take 2 = [MapEvent.mapRun 0, MapEvent.mapFinalRun 0]
        ∧ mapStageStdin.drop 2 = [MapEvent.flushE 0, MapEvent.closeE 0])
    ∧ (∀ s : List Char, ∀ c ∈ mapperTrace s, ∃ v, c = JobCall.map [] v) := by
  have hw : ∀ i, (fileWorkerTrace i).filter isMapFinal = [] := fun i => rfl
  have hflat : (((List.range n).map fileWorkerTrace).flatten).filter isMapFinal = [] := by
    rw [List.filter_eq_nil_iff]
    intro a ha
    rcases List.mem_flatten.mp ha with ⟨l, hl, hal⟩
    rcases List.mem_map.mp hl with ⟨i, _, hieq⟩
    subst hieq
    have : a ∈ [MapEvent.mapRun i, MapEvent.flushE i, MapEvent.closeE i] := hal
    rcases List.mem_cons.mp this with h1 | h1b
    · subst h1
      simp [isMapFinal]
    rcases List.mem_cons.mp h1b with h2 | h2b
    · subst h2
      simp [isMapFinal]
    rcases List.mem_cons.mp h2b with h3 | h3b
    · subst h3
      simp [isMapFinal]
    · cases h3b
  refine ⟨?_, hw, ?_, ⟨rfl, rfl, rfl⟩, ?_⟩
  · unfold mapStageFiles
    rw [List.filter_append, hflat]
    rfl
  · refine ⟨((List.range n).map fileWorkerTrace).flatten, rfl, hflat, ?_⟩
    intro i hi
    refine List.mem_flatten.mpr ⟨fileWorkerTrace i, ?_, ?_⟩
    · exact List.mem_map.mpr ⟨i, List.mem_range.mpr hi, rfl⟩
    · simp [fileWorkerTrace]
  · intro s c hc
    exact mapperTrace_only_map_fuel s.length s (Nat.le_refl _) c hc

/-- Witness for C4's amended statement at a concrete worker count. -/
theorem mapFinal_once_global_witness :
    (1 ≤ 2) ∧ (mapStageFiles 2).filter isMapFinal = [MapEvent.mapFinalRun 2] :=
  ⟨by decide, (mapFinal_once_global 2 (by decide)).1⟩

/-- The observable outcome of Main's mode decision. -/
inductive MainOutcome where
  | runMapReduce : MainOutcome
  | configError (exitCode : Nat) : MainOutcome
  | runMap : MainOutcome
  | runReduce : MainOutcome
deriving DecidableEq

/-- Main (runners.go lines 264-296), reduced to its mode decision: with the
mapreduce flag set the standalone pipeline runs and Main returns, regardless
of the other flags; otherwise setting both mapper and reducer flags, or
neither, prints a message and exits the process with code 1 before any phase
runs; otherwise the one requested phase runs over stdin/stdout (the map
phase followed by MapFinal, then the final flush). -/
def Main (doMapReduce doMap doReduce : Bool) : MainOutcome :=
  if doMapReduce then MainOutcome.runMapReduce
  else if doMap && doReduce then MainOutcome.configError 1
  else if !doMap && !doReduce then MainOutcome.configError 1
  else if doMap then MainOutcome.runMap
  else MainOutcome.runReduce

/-- C6 (confirmed): Main selects exactly one of three outcomes: the mapreduce
flag forces the standalone pipeline whatever the other flags say; otherwise
both or neither single-phase flags exit with status 1 (never 0) before any
phase; otherwise exactly the requested phase runs. -/
theorem main_dispatch_modes (dmr dm dr : Bool) :
    (dmr = true → Main dmr dm dr = MainOutcome.runMapReduce)
    ∧ (dmr = false → dm = dr → Main dmr dm dr = MainOutcome.configError 1)
    ∧ (dmr = false → dm = true → dr = false → Main dmr dm dr = MainOutcome.runMap)
    ∧ (dmr = false → dm = false → dr = true → Main dmr dm dr = MainOutcome.runReduce)
    ∧ ¬ Main dmr dm dr = MainOutcome.configError 0 := by
  cases dmr <;> cases dm <;> cases dr <;> decide

/-- Witness for C6 at each concrete flag combination. -/
theorem main_dispatch_modes_witness :
    Main true true true = MainOutcome.runMapReduce
    ∧ Main false true true = MainOutcome.configError 1
    ∧ Main false false false = MainOutcome.configError 1
    ∧ Main false true false = MainOutcome.runMap
    ∧ Main false false true = MainOutcome.runReduce :=
  ⟨(main_dispatch_modes true true true).1 rfl,
   (main_dispatch_modes false true true).2.1 rfl rfl,
   (main_dispatch_modes false false false).2.1 rfl rfl,
   (main_dispatch_modes false true false).2.2.1 rfl rfl rfl,
   (main_dispatch_modes false false true).2.2.2.1 rfl rfl rfl⟩

/-- The arguments one standalone map worker is launched with: which job
contract value it drives and which emitter it owns, both by identity. -/
structure WorkerArgs where
  jobRef : Nat
  emitterRef : Nat
deriving DecidableEq

/-- The map-worker launches of mapreduce (runners.go lines 184-201): the
goroutine for input file i calls mapper with the engine's single mrjob value
(the closure captures the one parameter; nothing ever copies or re-creates
the job) and with a fresh partition emitter created inside the goroutine and
identified by the worker index. -/
def mapWorkerArgs (mrjob : Nat) (n : Nat) : List WorkerArgs :=
  (List.range n).map (fun i => ⟨mrjob, i⟩)

/-- C10 counterexample: with two input files both concurrently running map
workers are launched with the identical job value, so the engine holds one
shared instance, not one instance per worker. -/
theorem one_job_shared_cex :
    (mapWorkerArgs 0 2).map WorkerArgs.jobRef = [0, 0]
    ∧ ((mapWorkerArgs 0 2).map WorkerArgs.jobRef).dedup.length = 1
    ∧ ¬ ((mapWorkerArgs 0 2).map WorkerArgs.jobRef).dedup.length = 2 := by
  decide

/-- C10 (amended): the engine passes the one job contract value it was given
to every standalone map worker, so all concurrently running map workers
share that single instance and any mutable state in it; each worker does own
its own freshly created emitter. -/
theorem one_job_shared (mrjob n : Nat) :
    (∀ a ∈ mapWorkerArgs mrjob n, a.jobRef = mrjob)
    ∧ (∀ a ∈ mapWorkerArgs mrjob n, ∀ b ∈ mapWorkerArgs mrjob n, a.jobRef = b.jobRef)
    ∧ ((mapWorkerArgs mrjob n).map WorkerArgs.emitterRef).Nodup := by
  have hjob : ∀ a ∈ mapWorkerArgs mrjob n, a.jobRef = mrjob := by
    intro a ha
    rcases List.mem_map.mp ha with ⟨i, _, hieq⟩
    rw [← hieq]
  refine ⟨hjob, ?_, ?_⟩
  · intro a ha b hb
    rw [hjob a ha, hjob b hb]
  · unfold mapWorkerArgs
    rw [List.map_map]
    have hcomp : (WorkerArgs.emitterRef ∘ fun i => WorkerArgs.mk mrjob i) = id := by
      funext i
      rfl
    rw [hcomp, List.map_id]
    exact List.nodup_range n

/-- Witness for C10's amended statement at a concrete worker pool. -/
theorem one_job_shared_witness :
    ((⟨5, 0⟩ : WorkerArgs) ∈ mapWorkerArgs 5 3)
    ∧ (⟨5, 0⟩ : WorkerArgs).jobRef = 5 :=
  ⟨by decide, (one_job_shared 5 3).1 ⟨5, 0⟩ (by decide)⟩

end Dmrgo
